import Mathlib

/-!
Verification of the `django-revisions` versioning layer (`revisions/models.py`,
`revisions/admin.py`) against its natural-language specification.

The model layer is shallowly embedded: a database is a list of rows, each row a
`Rev` record (primary key, content-bundle id `cid`, domain fields, trash flag).
Machine behaviour of the host framework that the source relies on is embedded
explicitly: `save` performs the update-or-insert of `Model.save`, `objects.get`
and query filtering become list operations, `order_by` becomes a stable
insertion sort on the comparator, and Python falsiness tests (`if not self.pk`,
`if not self.cid`, `x or ""`) are embedded as explicit truthiness functions.
The default comparator (the primary key, per `get_comparator_name` when no
`Versioning.comparator` is configured) is used throughout.

Primary keys and bundle ids are natural numbers; the UUID generator for bundle
ids is embedded as the `nextCid` counter of the database state, so that
freshness of a generated cid is the statement that `nextCid` is not yet in use.
Errors raised by the source are values of `Err` in an `Except` result.
-/

deriving instance DecidableEq for Except

namespace Revisions

/-- A Python-level field value as stored on a model instance: a string, an
integer, or None. Enough structure to express Python truthiness, which the
source tests with `if not x` and `x or ""`. -/
inductive Value where
  | vStr (s : String)
  | vInt (n : Int)
  | vNone
deriving DecidableEq, Repr

/-- Python truthiness of a field value: empty string, zero and None are falsy. -/
def Value.truthy : Value → Bool
  | .vStr s => s ≠ ""
  | .vInt n => n ≠ 0
  | .vNone => false

/-- Coercion to text, as `unicode(x)` does in the source. -/
def Value.toText : Value → String
  | .vStr s => s
  | .vInt n => toString n
  | .vNone => "None"

/-- The domain fields of a model instance, as an association list from field
name to value (the instance `__dict__` of the source). -/
abbrev Fields := List (String × Value)

/-- Lookup of a field value by name, `None`-free: `none` means the attribute
is absent from the instance dictionary. -/
def fieldGet (fs : Fields) (name : String) : Option Value :=
  (fs.find? (fun p => p.1 == name)).map Prod.snd

/-- One model instance / database row of a `VersionedModelBase` subclass:
primary key (absent on an unpersisted instance), content bundle id `cid`
(absent until first save), domain fields, and the `_is_trash` flag of
`TrashableModel`. -/
structure Rev where
  pk : Option Nat
  cid : Option Nat
  fields : Fields
  is_trash : Bool := false
deriving DecidableEq, Repr

/-- The relational store plus the id generators: the rows of the table, the
auto-increment source for primary keys, and the UUID source for bundle ids. -/
structure DB where
  rows : List Rev
  nextPk : Nat
  nextCid : Nat
deriving DecidableEq, Repr

/-- The comparator of a revision under the default configuration
(`get_comparator_name` falls back to the primary-key attribute). Rows in the
store always carry a primary key, so the default for the unpersisted case is
immaterial to the theorems. -/
def comparator (r : Rev) : Nat := r.pk.getD 0

/-- Python truthiness of `self.pk` (`if not self.pk` in `revise`): `None` and
`0` are falsy. -/
def pkTruthy (r : Rev) : Bool :=
  match r.pk with
  | none => false
  | some p => p ≠ 0

/-- Python truthiness of `self.cid` (`if not self.cid` in `save`): the cid is
a 32-character hex string when present, so only an unset cid is falsy. -/
def cidTruthy (r : Rev) : Bool := r.cid.isSome

/-- Exceptions raised by the embedded code paths. -/
inductive Err where
  | doesNotExist
  | multipleObjectsReturned
  | indexError
  | integrityError
  | validationError
  | improperlyConfigured
  | typeError
  | attributeError
  | nameError
  | keyError
deriving DecidableEq, Repr

/-- The per-model configuration: the inner `Versioning` class of the source
(`unique`, `unique_together`, `publication_date`) together with the uniqueness
tuples of the model `_meta` options, which `_get_unique_checks` also folds in. -/
structure ModelConfig where
  unique : List String := []
  unique_together : List (List String) := []
  meta_unique_together : List (List String) := []
  publication_date : Option String := none
deriving DecidableEq, Repr

/-- The uniqueness checks assembled by `_get_unique_checks`: each single field
of `Versioning.unique` as a one-element tuple, then `Versioning.unique_together`
and `_meta.unique_together`. -/
def get_unique_checks (cfg : ModelConfig) : List (List String) :=
  cfg.unique.map (fun f => [f]) ++ cfg.unique_together ++ cfg.meta_unique_together

/-- Whether a stored row conflicts with the instance being validated on one
uniqueness tuple: the row is a different row (Django excludes the instance
itself by primary key when it has one) and agrees with the instance on every
field of the tuple. -/
def conflictsWith (e r : Rev) (check : List String) : Bool :=
  (match e.pk with
   | some p => !(r.pk == some p)
   | none => true) &&
  check.all (fun f => fieldGet r.fields f == fieldGet e.fields f)

/-- Whether `validate_unique` finds a violation for the instance against the
current table contents. -/
def hasUniqueViolation (cfg : ModelConfig) (db : DB) (e : Rev) : Bool :=
  (get_unique_checks cfg).any (fun chk => db.rows.any (fun r => conflictsWith e r chk))

/-- Django `Model.validate_unique`, restricted to the uniqueness tuples of
`_get_unique_checks`: raises `ValidationError` on a violation. -/
def validate_unique (cfg : ModelConfig) (db : DB) (e : Rev) : Except Err Unit :=
  if hasUniqueViolation cfg db e then .error .validationError else .ok ()

/-- The guard of `validate_bundle`: `Versioning.unique_together` or
`Versioning.unique` is declared non-empty (Python truthiness of the tuples). -/
def uniqueDeclared (cfg : ModelConfig) : Bool :=
  !cfg.unique_together.isEmpty || !cfg.unique.isEmpty

/-- `VersionedModelBase.validate_bundle`: when bundle-level uniqueness
constraints are declared, run `validate_unique` and replace a
`ValidationError` with an `IntegrityError`, because that is what users expect. -/
def validate_bundle (cfg : ModelConfig) (db : DB) (e : Rev) : Except Err Unit :=
  if uniqueDeclared cfg then
    match validate_unique cfg db e with
    | .error _ => .error .integrityError
    | .ok () => .ok ()
  else .ok ()

/-- `VersionedModelBase.save`: assign a fresh bundle id when the instance has
none (`uuid.uuid4().hex`, embedded as the `nextCid` counter), run
`validate_bundle`, then perform the update-or-insert of the framework
`Model.save`: with a primary key present and matching a stored row, the row is
updated in place; otherwise the instance is inserted, drawing a fresh primary
key from the auto-increment counter when it has none. -/
def save (cfg : ModelConfig) (db : DB) (e : Rev) : Except Err (DB × Rev) :=
  let ed : Rev × DB :=
    if cidTruthy e then (e, db)
    else ({ e with cid := some db.nextCid }, { db with nextCid := db.nextCid + 1 })
  let e := ed.1
  let db := ed.2
  match validate_bundle cfg db e with
  | .error err => .error err
  | .ok () =>
    match e.pk with
    | some p =>
      if db.rows.any (fun r => r.pk == some p) then
        .ok ({ db with rows := db.rows.map (fun r => if r.pk == some p then e else r) }, e)
      else
        .ok ({ db with rows := db.rows ++ [e] }, e)
    | none =>
      let e := { e with pk := some db.nextPk }
      .ok ({ db with rows := db.rows ++ [e], nextPk := db.nextPk + 1 }, e)

/-- Modelled from the spec: `utils.ClonableMixin.clone` is imported by
`models.py` but `utils.py` is not part of the sources under review. Per the
spec (section 4.2), clone must "produce a new row copying all fields except
primary key, assign a fresh comparator, and insert — never overwrite the prior
row". With the default comparator being the primary key, clearing the primary
key and saving inserts the copy under a fresh key, which is the fresh
comparator. -/
def clone (cfg : ModelConfig) (db : DB) (e : Rev) : Except Err (DB × Rev) :=
  save cfg db { e with pk := none }

/-- `VersionedModelBase.revise`: validate the bundle constraints, then save
(plain insert establishing the bundle) when the instance has no truthy primary
key, and clone otherwise. -/
def revise (cfg : ModelConfig) (db : DB) (e : Rev) : Except Err (DB × Rev) :=
  match validate_bundle cfg db e with
  | .error err => .error err
  | .ok () => if pkTruthy e then clone cfg db e else save cfg db e

/-- The unsorted content bundle of an instance: the rows whose `cid` equals
the instance cid (the `filter(cid=self.cid)` of `get_revisions`). -/
def bundle (db : DB) (e : Rev) : List Rev :=
  db.rows.filter (fun r => r.cid == e.cid)

/-- `order_by(comparator)` ascending: a stable sort on the comparator. -/
def orderByComparator (l : List Rev) : List Rev :=
  List.insertionSort (fun a b => comparator a ≤ comparator b) l

/-- `order_by('-comparator')` descending. -/
def orderByComparatorDesc (l : List Rev) : List Rev :=
  List.insertionSort (fun a b => comparator b ≤ comparator a) l

/-- `VersionedModelBase.get_revisions`: all rows sharing the instance cid,
ordered by the comparator. -/
def get_revisions (db : DB) (e : Rev) : List Rev :=
  orderByComparator (bundle db e)

/-- The `prev` attribute set by `get_revisions`: the queryset further filtered
to comparators strictly below the instance comparator, reordered descending,
first element; `IndexError` on an empty result becomes `none`. -/
def get_revisions_prev (db : DB) (e : Rev) : Option Rev :=
  (orderByComparatorDesc
    ((get_revisions db e).filter (fun r => comparator r < comparator e))).head?

/-- The `next` attribute set by `get_revisions`: the (ascending-ordered)
queryset filtered to comparators strictly above the instance comparator, first
element; `IndexError` becomes `none`. -/
def get_revisions_next (db : DB) (e : Rev) : Option Rev :=
  ((get_revisions db e).filter (fun r => comparator e < comparator r)).head?

/-- `VersionedModelBase.get_latest_revision`: the bundle ordered descending by
comparator, first element. -/
def get_latest_revision (db : DB) (e : Rev) : Option Rev :=
  (orderByComparatorDesc (get_revisions db e)).head?

/-- Well-formedness of one stored row relative to the id generators: a
positive primary key below the auto-increment counter and a bundle id below
the UUID counter. -/
def wfRev (db : DB) (r : Rev) : Bool :=
  (match r.pk with
   | some p => 0 < p && p < db.nextPk
   | none => false) &&
  (match r.cid with
   | some c => c < db.nextCid
   | none => false)

/-- Well-formedness of the store: every row well formed, primary keys
pairwise distinct, and a positive auto-increment counter. -/
def WF (db : DB) : Prop :=
  (∀ r ∈ db.rows, wfRev db r = true) ∧
  (db.rows.map (fun r => r.pk)).Nodup ∧ 0 < db.nextPk

instance : DecidablePred WF := fun db => by
  unfold WF; infer_instance

/-- The selector argument of `fetch`: an integer or string primary key, an
already-resolved model instance, a date, or anything else (the `TypeError`
branch). -/
inductive Criterion where
  | byPk (p : Nat)
  | byObj (r : Rev)
  | byDate (d : Nat)
  | other
deriving DecidableEq, Repr

/-- `cls.objects.get(pk=criterion)`: exactly one matching row, or
`DoesNotExist` / `MultipleObjectsReturned`. -/
def objects_get_pk (db : DB) (p : Nat) : Except Err Rev :=
  match db.rows.filter (fun r => r.pk == some p) with
  | [r] => .ok r
  | [] => .error .doesNotExist
  | _ => .error .multipleObjectsReturned

/-- `VersionedModelBase.fetch`. A primary-key criterion goes through
`objects.get`; a model instance is returned as is; a date criterion checks the
truthiness of `Versioning.publication_date` and raises `ImproperlyConfigured`
when it is unset. When it is set, the source line — filter on publication date
less-or-equal, then `.order` descending by comparator, then index 0 —
crashes unconditionally: a queryset has no attribute `order` (the method is
`order_by`), raising `AttributeError` — and `self` is not even bound inside
this `@classmethod`, so the argument expression alone would raise `NameError`.
The crash is embedded as `Err.attributeError`, the first error Python reaches. -/
def fetch (cfg : ModelConfig) (db : DB) (c : Criterion) : Except Err Rev :=
  match c with
  | .byPk p => objects_get_pk db p
  | .byObj r => .ok r
  | .byDate _ =>
    if (cfg.publication_date.getD "") ≠ "" then .error .attributeError
    else .error .improperlyConfigured
  | .other => .error .typeError

/-- `VersionedModelBase.revert_to`: fetch the target, raise `IndexError` when
its primary key is not among the primary keys of the content bundle
(`values_list('pk', flat=True)`), and otherwise revise the target. -/
def revert_to (cfg : ModelConfig) (db : DB) (e : Rev) (c : Criterion) :
    Except Err (DB × Rev) :=
  match fetch cfg db c with
  | .error err => .error err
  | .ok obj =>
    if obj.pk ∈ (get_revisions db e).map (fun r => r.pk) then
      revise cfg db obj
    else
      .error .indexError

/-- One entry of a text diff: a deletion, an insertion, or an unchanged run,
mirroring the `(DIFF_DELETE | DIFF_INSERT | DIFF_EQUAL, text)` pairs of the
external diff-match-patch library. -/
inductive DiffOp where
  | del (s : String)
  | ins (s : String)
  | eq (s : String)
deriving DecidableEq, Repr

def DiffOp.isIns : DiffOp → Bool
  | .ins _ => true
  | _ => false

def DiffOp.isDel : DiffOp → Bool
  | .del _ => true
  | _ => false

/-- Length of the common prefix of two character lists. -/
def commonPrefixLen : List Char → List Char → Nat
  | x :: xs, y :: ys => if x = y then commonPrefixLen xs ys + 1 else 0
  | _, _ => 0

/-- Modelled from the external diff-match-patch library that `show_diff_to`
delegates to. `diff_main` begins with a speedup that is part of the observable
contract: equal inputs yield a single `EQUAL` run (or the empty diff when both
texts are empty). For unequal inputs it trims the common prefix and suffix and
diffs the middles; the recursive middle computation is abbreviated here to a
single deletion plus insertion, a coarse but valid diff (the claims under
review only exercise the equal-inputs path). -/
def diff_main (t1 t2 : String) : List DiffOp :=
  if t1 = t2 then
    (if t1 = "" then [] else [.eq t1])
  else
    let a := t1.toList
    let b := t2.toList
    let p := commonPrefixLen a b
    let a1 := a.drop p
    let b1 := b.drop p
    let s := commonPrefixLen a1.reverse b1.reverse
    let midA := a1.take (a1.length - s)
    let midB := b1.take (b1.length - s)
    (if p = 0 then [] else [.eq (String.mk (a.take p))]) ++
    (if midA.isEmpty then [] else [.del (String.mk midA)]) ++
    (if midB.isEmpty then [] else [.ins (String.mk midB)]) ++
    (if s = 0 then [] else [.eq (String.mk (a1.drop (a1.length - s)))])

/-- The HTML rendering of the library `diff_prettyHtml`, one tag per diff op. -/
def diff_prettyHtml (ops : List DiffOp) : String :=
  String.join (ops.map fun op =>
    match op with
    | .ins s => "<ins style=\"background:#e6ffe6;\">" ++ s ++ "</ins>"
    | .del s => "<del style=\"background:#ffe6e6;\">" ++ s ++ "</del>"
    | .eq s => "<span>" ++ s ++ "</span>")

/-- `getattr(self, field)` for a plain field: the instance dictionary value,
or `AttributeError` when the attribute is absent. -/
def getattr_field (e : Rev) (f : String) : Except Err Value :=
  match fieldGet e.fields f with
  | some v => .ok v
  | none => .error .attributeError

/-- The text coercion `unicode(x or "")` used by `show_diff_to` on both field
values: a falsy value contributes the empty string. -/
def pyOrEmptyText (v : Value) : String :=
  if v.truthy then v.toText else ""

/-- The diff list computed inside `VersionedModelBase.show_diff_to`: both field
values coerced by `unicode(getattr(..., field) or "")`, then `diff_main`. -/
def show_diff_ops (a b : Rev) (f : String) : Except Err (List DiffOp) :=
  match getattr_field a f with
  | .error err => .error err
  | .ok va =>
    match getattr_field b f with
    | .error err => .error err
    | .ok vb => .ok (diff_main (pyOrEmptyText va) (pyOrEmptyText vb))

/-- `VersionedModelBase.show_diff_to`: the pretty-HTML rendering of the diff. -/
def show_diff_to (a b : Rev) (f : String) : Except Err String :=
  match show_diff_ops a b f with
  | .error err => .error err
  | .ok ops => .ok (diff_prettyHtml ops)

/-- `TrashableModel.get_content_bundle` for a versioned trashable model (the
`isinstance(self, VersionedModelBase)` branch): all revisions of the bundle. -/
def get_content_bundle (db : DB) (e : Rev) : List Rev :=
  get_revisions db e

/-- The loop body of `TrashableModel.delete`, iterating over the snapshot of
the content bundle: set `_is_trash` on each revision and save it. -/
def trash_delete_go (cfg : ModelConfig) : List Rev → DB → Except Err DB
  | [], db => .ok db
  | obj :: rest, db =>
    match save cfg db { obj with is_trash := true } with
    | .error err => .error err
    | .ok (db2, _) => trash_delete_go cfg rest db2

/-- `TrashableModel.delete` (soft delete): mark every revision of the content
bundle as trash and save each one; no row is removed. -/
def TrashableModel_delete (cfg : ModelConfig) (db : DB) (e : Rev) : Except Err DB :=
  trash_delete_go cfg (get_content_bundle db e) db

/-- `VersionedModelBase.delete_revision`, which is the framework
`Model.delete` for a single row: remove the row with this primary key. -/
def delete_revision (db : DB) (r : Rev) : DB :=
  { db with rows := db.rows.filter (fun x => !(x.pk == r.pk)) }

/-- `VersionedModelBase.delete`: delete every revision of the bundle
(`for revision in self.get_revisions(): revision.delete_revision()`). -/
def VersionedModel_delete (db : DB) (e : Rev) : DB :=
  (get_revisions db e).foldl delete_revision db

/-- `TrashableModel.delete_permanently`: for every object of the content
bundle, call the framework `Model.delete` (via `super(TrashableModel, obj)`),
removing the row. -/
def delete_permanently (db : DB) (e : Rev) : DB :=
  (get_content_bundle db e).foldl delete_revision db

/-- `self.__dict__.get(name, False)` as used by `_get_attribute_history`:
lookup in the instance dictionary. -/
def dunderDictGet (r : Rev) (name : String) : Option Value :=
  fieldGet r.fields name

/-- The truthiness of `self.__dict__.get(name, False)`: false when the
attribute is absent (the `False` default) and the Python truthiness of the
value otherwise. -/
def dictGetTruthy (r : Rev) (name : String) : Bool :=
  (dunderDictGet r name).elim false Value.truthy

/-- The list comprehension of `_get_attribute_history`: the (value, revision)
pair for each revision in order, where the value is the instance-dictionary
entry for `name` (`KeyError` on a revision missing the attribute). -/
def historyPairs (name : String) : List Rev → Except Err (List (Value × Rev))
  | [] => .ok []
  | v :: rest =>
    match dunderDictGet v name with
    | some x =>
      match historyPairs name rest with
      | .error err => .error err
      | .ok l => .ok ((x, v) :: l)
    | none => .error Err.keyError

/-- `VersionedModelBase._get_attribute_history`: when the current value of the
attribute is truthy, the list of (value, revision) pairs over the ordered
revisions of the bundle; otherwise `AttributeError`. -/
def _get_attribute_history (db : DB) (e : Rev) (name : String) :
    Except Err (List (Value × Rev)) :=
  if dictGetTruthy e name then
    historyPairs name (get_revisions db e)
  else .error .attributeError

/-- Python `str.endswith`, on the character lists underlying the strings. -/
def pyEndsWith (s suffix : String) : Bool :=
  suffix.data.isSuffixOf s.data

/-- Fuel-driven worker for `pyReplace`: replace leftmost, non-overlapping
occurrences of `pat`. The fuel is the length of the subject, which bounds the
number of steps; every step consumes at least one character of the subject. -/
def pyReplaceGo (pat rep : List Char) : Nat → List Char → List Char
  | 0, s => s
  | _ + 1, [] => []
  | fuel + 1, c :: cs =>
    if pat.isPrefixOf (c :: cs) then
      rep ++ pyReplaceGo pat rep fuel ((c :: cs).drop pat.length)
    else
      c :: pyReplaceGo pat rep fuel cs

/-- Python `str.replace` (all occurrences, leftmost-first, non-overlapping),
for a non-empty pattern. -/
def pyReplace (s pat rep : String) : String :=
  if pat.data.isEmpty then s
  else String.mk (pyReplaceGo pat.data rep.data s.data.length s.data)

/-- `VersionedModelBase.__getattr__` for history lookups. The `related_`
branch of the source piggybacks on related managers, which do not exist in
this embedding (no relations are modelled), so that branch always falls
through exactly as it does in the source when the stripped attribute is not a
related manager. A name ending in `_history` is answered by
`_get_attribute_history` on the name with every occurrence of `_history`
removed (Python `str.replace` replaces all occurrences); any other name
raises `AttributeError`. -/
def getattrFallback (db : DB) (e : Rev) (name : String) :
    Except Err (List (Value × Rev)) :=
  if pyEndsWith name "_history" then
    _get_attribute_history db e (pyReplace name "_history" "")
  else .error .attributeError

/-- One entry of the `diff_list` built by the admin
`revisions_diff_view`: field name, rendered diff, and the two sides. -/
structure DiffEntry where
  name : String
  diff : String
  fromText : String
  toText : String
deriving DecidableEq, Repr

/-- The fields the admin diff view skips. -/
def diff_ignored_fields : List String := ["vid", "vuser", "vdatetime", "cid"]

/-- The field loop of `RevisionsHistoryVersionedAdminMixin.revisions_diff_view`.
The Python local `fromText` is assigned only inside the branch taken when the
object has a previous revision; the accumulator argument `fromTextVar` carries
its binding state (`none` = unbound). In the no-previous branch the source
renders an insertion from `fromText`, which at that point is an unbound local:
Python raises `NameError`, embedded as `Err.nameError`. -/
def revisions_diff_go (db : DB) (obj : Rev) (fromTextVar : Option String) :
    List String → Except Err (List DiffEntry)
  | [] => .ok []
  | f :: rest =>
    if diff_ignored_fields.contains f then
      revisions_diff_go db obj fromTextVar rest
    else
      match getattr_field obj f with
      | .error err => .error err
      | .ok v =>
        let toText := v.toText
        match get_revisions_prev db obj with
        | some prev =>
          match getattr_field prev f with
          | .error err => .error err
          | .ok pv =>
            let fromText := pv.toText
            match show_diff_to prev obj f with
            | .error err => .error err
            | .ok d =>
              match revisions_diff_go db obj (some fromText) rest with
              | .error err => .error err
              | .ok restEntries =>
                .ok ({ name := f, diff := d, fromText := fromText,
                       toText := toText } :: restEntries)
        | none =>
          match fromTextVar with
          | none => .error .nameError
          | some ft =>
            match revisions_diff_go db obj fromTextVar rest with
            | .error err => .error err
            | .ok restEntries =>
              .ok ({ name := f,
                     diff := "<ins style=\"background:#e6ffe6;\">" ++ ft ++ "</ins>",
                     fromText := "", toText := toText } :: restEntries)

/-- The `diff_list` computation of `revisions_diff_view`, over the model
fields in declaration order, with the Python local `fromText` initially
unbound. -/
def revisions_diff_list (db : DB) (obj : Rev) (fields : List String) :
    Except Err (List DiffEntry) :=
  revisions_diff_go db obj none fields

/-! ### Specification predicates for the claims under review -/

/-- Frame specification of `revise` (claim C1). First conjunct: a
never-persisted instance (no primary key, no bundle id) is inserted as exactly
one new row carrying a freshly generated bundle id not present on any existing
row. Second conjunct: a persisted instance is cloned — the stored rows are
left untouched and exactly one new row is appended, carrying the same bundle
id and fields and a comparator strictly above every existing one. -/
def ReviseFrameSpec (cfg : ModelConfig) (db : DB) (e : Rev) : Prop :=
  (e.pk = none → e.cid = none →
    revise cfg db e =
      .ok ({ rows := db.rows ++ [{ e with cid := some db.nextCid, pk := some db.nextPk }],
             nextPk := db.nextPk + 1, nextCid := db.nextCid + 1 },
           { e with cid := some db.nextCid, pk := some db.nextPk })
    ∧ ∀ x ∈ db.rows, x.cid ≠ some db.nextCid)
  ∧ (∀ p, e.pk = some p → 0 < p → cidTruthy e = true →
    revise cfg db e =
      .ok ({ rows := db.rows ++ [{ e with pk := some db.nextPk }],
             nextPk := db.nextPk + 1, nextCid := db.nextCid },
           { e with pk := some db.nextPk })
    ∧ ({ e with pk := some db.nextPk }).cid = e.cid
    ∧ ({ e with pk := some db.nextPk }).fields = e.fields
    ∧ ∀ x ∈ db.rows, comparator x < comparator { e with pk := some db.nextPk })

/-- Traversal specification of `get_revisions` (claim C2): the queryset is a
permutation of the bundle, sorted by comparator, with pairwise distinct
comparators; `prev` is the bundle member with the greatest comparator strictly
below the instance comparator (`none` exactly at the lower boundary), `next`
the member with the least comparator strictly above (`none` exactly at the
upper boundary). -/
def TraversalSpec (db : DB) (e : Rev) : Prop :=
  ((get_revisions db e).Perm (bundle db e)
    ∧ List.Sorted (fun a b => comparator a ≤ comparator b) (get_revisions db e)
    ∧ List.Pairwise (fun a b => comparator a ≠ comparator b) (get_revisions db e))
  ∧ (∀ p, get_revisions_prev db e = some p →
      p ∈ bundle db e ∧ comparator p < comparator e ∧
        ∀ q ∈ bundle db e, comparator q < comparator e → comparator q ≤ comparator p)
  ∧ (get_revisions_prev db e = none ↔
      ∀ q ∈ bundle db e, ¬ comparator q < comparator e)
  ∧ (∀ nx, get_revisions_next db e = some nx →
      nx ∈ bundle db e ∧ comparator e < comparator nx ∧
        ∀ q ∈ bundle db e, comparator e < comparator q → comparator nx ≤ comparator q)
  ∧ (get_revisions_next db e = none ↔
      ∀ q ∈ bundle db e, ¬ comparator e < comparator q)

/-- Specification of `revert_to` (claim C3): when the fetched target has a
primary key outside the bundle, the call raises `IndexError` — and when the
target is a stored revision of the bundle, the call appends one new row
copying the target fields, in the same bundle, with a comparator strictly
above every stored row, changing nothing else. -/
def RevertSpec (cfg : ModelConfig) (db : DB) (e : Rev) (c : Criterion) : Prop :=
  (∀ obj, fetch cfg db c = .ok obj →
    obj.pk ∉ (get_revisions db e).map (fun r => r.pk) →
    revert_to cfg db e c = .error .indexError)
  ∧ (∀ obj, fetch cfg db c = .ok obj → obj ∈ db.rows →
    obj.pk ∈ (get_revisions db e).map (fun r => r.pk) →
    revert_to cfg db e c =
      .ok ({ rows := db.rows ++ [{ obj with pk := some db.nextPk }],
             nextPk := db.nextPk + 1, nextCid := db.nextCid },
           { obj with pk := some db.nextPk })
    ∧ ({ obj with pk := some db.nextPk }).fields = obj.fields
    ∧ ({ obj with pk := some db.nextPk }).cid = e.cid
    ∧ ∀ x ∈ db.rows, comparator x < comparator { obj with pk := some db.nextPk })

/-- Specification of bundle validation in `revise` (claim C4): a
`validate_unique` failure is exactly a uniqueness violation and `revise`
translates it to `IntegrityError` before writing anything; without a violation
the insert proceeds (one row appended); on the clone path the copy to be
inserted is validated as well — a violation on the copy again yields
`IntegrityError`, and otherwise the clone proceeds (one row appended). -/
def ValidationSpec (cfg : ModelConfig) (db : DB) (e : Rev) : Prop :=
  (validate_unique cfg db e = .error .validationError ↔ hasUniqueViolation cfg db e = true)
  ∧ (hasUniqueViolation cfg db e = true → revise cfg db e = .error .integrityError)
  ∧ (hasUniqueViolation cfg db e = false → e.pk = none →
      ∃ r db2, revise cfg db e = .ok (db2, r) ∧ db2.rows = db.rows ++ [r])
  ∧ (hasUniqueViolation cfg db e = false → pkTruthy e = true →
      (hasUniqueViolation cfg db { e with pk := none } = true →
        revise cfg db e = .error .integrityError)
      ∧ (hasUniqueViolation cfg db { e with pk := none } = false →
        ∃ r db2, revise cfg db e = .ok (db2, r) ∧ db2.rows = db.rows ++ [r]))

/-- Specification of soft delete (claim C6): every revision of the bundle is
rewritten in place with the trash flag set, no row is added or removed, and
the content bundle afterwards consists of exactly the same revisions, each
flagged as trash. -/
def SoftDeleteSpec (cfg : ModelConfig) (db : DB) (e : Rev) : Prop :=
  ∃ db2, TrashableModel_delete cfg db e = .ok db2
    ∧ db2.rows = db.rows.map
        (fun r => if r.cid = e.cid then { r with is_trash := true } else r)
    ∧ get_content_bundle db2 e =
        (get_content_bundle db e).map (fun r => { r with is_trash := true })
    ∧ ∀ r ∈ get_content_bundle db2 e, r.is_trash = true

/-- Specification of hard delete (claim C7): both `VersionedModelBase.delete`
and `TrashableModel.delete_permanently` remove exactly the rows of the bundle,
leaving no revision of the bundle behind and every other row in place. -/
def HardDeleteSpec (db : DB) (e : Rev) : Prop :=
  (VersionedModel_delete db e).rows = db.rows.filter (fun r => !(r.cid == e.cid))
  ∧ (delete_permanently db e).rows = db.rows.filter (fun r => !(r.cid == e.cid))
  ∧ (∀ r ∈ (VersionedModel_delete db e).rows, ¬ r.cid = e.cid)
  ∧ (∀ r ∈ (delete_permanently db e).rows, ¬ r.cid = e.cid)

/-- Specification of diffing equal field values (claim C8): the diff computed
by `show_diff_to` contains no insertion and no deletion. -/
def DiffEqualSpec (a b : Rev) (f : String) : Prop :=
  ∃ ops, show_diff_ops a b f = .ok ops
    ∧ ops.all (fun op => !op.isIns && !op.isDel) = true

/-- Specification of the `_history` attribute interception (claim C10): a
falsy (or absent) current value of the underlying attribute raises
`AttributeError` even though the attribute may well exist; a truthy value
yields the (value, revision) pairs across the ordered bundle. -/
def HistorySpec (db : DB) (e : Rev) (n : String) : Prop :=
  (dictGetTruthy e (pyReplace n "_history" "") = false →
    getattrFallback db e n = .error .attributeError)
  ∧ (dictGetTruthy e (pyReplace n "_history" "") = true →
    (∀ r ∈ get_revisions db e,
      (dunderDictGet r (pyReplace n "_history" "")).isSome = true) →
    getattrFallback db e n = .ok ((get_revisions db e).map
      (fun r => ((dunderDictGet r (pyReplace n "_history" "")).getD .vNone, r))))

/-! ### Concrete instances used by the witnesses -/

/-- A configuration with no bundle uniqueness constraints and no publication
date, matching the defaults of the inner `Versioning` class. -/
def defaultCfg : ModelConfig := {}

/-- A configuration declaring one bundle-level unique field. -/
def cfgUnique : ModelConfig := { unique := ["title"] }

/-- First revision of bundle 0. -/
def r1 : Rev := { pk := some 1, cid := some 0, fields := [("title", .vStr "a")] }

/-- Second revision of bundle 0. -/
def r2 : Rev := { pk := some 2, cid := some 0, fields := [("title", .vStr "b")] }

/-- Sole revision of bundle 1. -/
def r3 : Rev := { pk := some 3, cid := some 1, fields := [("title", .vStr "c")] }

/-- A small store holding both bundles. -/
def db0 : DB := { rows := [r2, r1, r3], nextPk := 4, nextCid := 2 }

/-- A never-persisted instance: no primary key, no bundle id. -/
def eFresh : Rev := { pk := none, cid := none, fields := [("title", .vStr "x")] }

/-- A revision whose `title` is the empty string. -/
def rBlank : Rev := { pk := some 1, cid := some 0, fields := [("title", .vStr "")] }

/-- A revision whose `title` is `None`. -/
def rNoneF : Rev := { pk := some 2, cid := some 0, fields := [("title", .vNone)] }

/-! ### Instances and helper lemmas -/

instance relCompTotal : IsTotal Rev (fun a b => comparator a ≤ comparator b) :=
  ⟨fun a b => Nat.le_total _ _⟩

instance relCompTrans : IsTrans Rev (fun a b => comparator a ≤ comparator b) :=
  ⟨fun _ _ _ h1 h2 => Nat.le_trans h1 h2⟩

instance relCompTotalDesc : IsTotal Rev (fun a b => comparator b ≤ comparator a) :=
  ⟨fun a b => Nat.le_total _ _⟩

instance relCompTransDesc : IsTrans Rev (fun a b => comparator b ≤ comparator a) :=
  ⟨fun _ _ _ h1 h2 => Nat.le_trans h2 h1⟩

theorem mem_orderByComparatorDesc {l : List Rev} {x : Rev} :
    x ∈ orderByComparatorDesc l ↔ x ∈ l := List.mem_insertionSort _

theorem sorted_orderByComparator (l : List Rev) :
    List.Sorted (fun a b => comparator a ≤ comparator b) (orderByComparator l) :=
  List.sorted_insertionSort _ l

theorem sorted_orderByComparatorDesc (l : List Rev) :
    List.Sorted (fun a b => comparator b ≤ comparator a) (orderByComparatorDesc l) :=
  List.sorted_insertionSort _ l

theorem mem_get_revisions {db : DB} {e x : Rev} :
    x ∈ get_revisions db e ↔ x ∈ bundle db e := List.mem_insertionSort _

theorem mem_bundle {db : DB} {e x : Rev} :
    x ∈ bundle db e ↔ x ∈ db.rows ∧ x.cid = e.cid := by
  simp [bundle, List.mem_filter]

theorem head?_orderByComparatorDesc_max {l : List Rev} {p : Rev}
    (h : (orderByComparatorDesc l).head? = some p) :
    p ∈ l ∧ ∀ q ∈ l, comparator q ≤ comparator p := by
  have hs := sorted_orderByComparatorDesc l
  rcases hl : orderByComparatorDesc l with _ | ⟨a, t⟩
  · rw [hl] at h; simp at h
  · rw [hl] at h hs
    simp only [List.head?_cons, Option.some.injEq] at h
    subst h
    constructor
    · exact mem_orderByComparatorDesc.mp (hl ▸ List.mem_cons_self _ _)
    · intro q hq
      have hq2 : q ∈ orderByComparatorDesc l := mem_orderByComparatorDesc.mpr hq
      rw [hl] at hq2
      rcases List.mem_cons.mp hq2 with h1 | h2
      · subst h1; exact Nat.le_refl _
      · exact List.rel_of_sorted_cons hs q h2

theorem head?_orderByComparatorDesc_none {l : List Rev}
    (h : (orderByComparatorDesc l).head? = none) : l = [] := by
  rw [List.head?_eq_none_iff] at h
  have hp := List.perm_insertionSort (fun a b => comparator b ≤ comparator a) l
  rw [orderByComparatorDesc] at h
  rw [h] at hp
  exact hp.symm.eq_nil

theorem head?_asc_min {l : List Rev} {p : Rev}
    (hs : List.Sorted (fun a b => comparator a ≤ comparator b) l)
    (h : l.head? = some p) :
    p ∈ l ∧ ∀ q ∈ l, comparator p ≤ comparator q := by
  rcases l with _ | ⟨a, t⟩
  · simp at h
  · simp only [List.head?_cons, Option.some.injEq] at h
    subst h
    refine ⟨List.mem_cons_self _ _, ?_⟩
    intro q hq
    rcases List.mem_cons.mp hq with h1 | h2
    · subst h1; exact Nat.le_refl _
    · exact List.rel_of_sorted_cons hs q h2

theorem validate_bundle_no_constraints {cfg : ModelConfig} {db : DB} {e : Rev}
    (h : uniqueDeclared cfg = false) : validate_bundle cfg db e = .ok () := by
  simp [validate_bundle, h]

theorem wfRev_of_mem {db : DB} {r : Rev} (hwf : WF db) (hr : r ∈ db.rows) :
    wfRev db r = true := hwf.1 r hr

theorem cid_lt_of_mem {db : DB} {r : Rev} (hwf : WF db) (hr : r ∈ db.rows) :
    ∃ c, r.cid = some c ∧ c < db.nextCid := by
  have h := wfRev_of_mem hwf hr
  unfold wfRev at h
  rcases hp : r.pk with _ | p <;> rw [hp] at h
  · simp at h
  · rcases hc : r.cid with _ | c <;> rw [hc] at h
    · simp at h
    · simp at h
      exact ⟨c, rfl, by omega⟩

theorem pk_lt_of_mem {db : DB} {r : Rev} (hwf : WF db) (hr : r ∈ db.rows) :
    ∃ p, r.pk = some p ∧ 0 < p ∧ p < db.nextPk := by
  have h := wfRev_of_mem hwf hr
  unfold wfRev at h
  rcases hp : r.pk with _ | p <;> rw [hp] at h
  · simp at h
  · rcases hc : r.cid with _ | c <;> rw [hc] at h
    · simp at h
    · simp at h
      exact ⟨p, rfl, by omega, by omega⟩

theorem pk_inj_of_wf {db : DB} (hwf : WF db) {a b : Rev}
    (ha : a ∈ db.rows) (hb : b ∈ db.rows) (hpk : a.pk = b.pk) : a = b :=
  List.inj_on_of_nodup_map hwf.2.1 ha hb hpk

theorem revise_clone_eq {cfg : ModelConfig} (db : DB) {e : Rev} {p : Nat}
    (hnc : uniqueDeclared cfg = false) (hpk : e.pk = some p) (hpos : p ≠ 0)
    (hcid : e.cid.isSome = true) :
    revise cfg db e =
      .ok ({ rows := db.rows ++ [{ e with pk := some db.nextPk }],
             nextPk := db.nextPk + 1, nextCid := db.nextCid },
           { e with pk := some db.nextPk }) := by
  have hpkt : pkTruthy e = true := by simp [pkTruthy, hpk, hpos]
  simp [revise, validate_bundle, hnc, hpkt, clone, save, cidTruthy, hcid]

theorem hasUniqueViolation_congr (cfg : ModelConfig) (db db2 : DB) (e e2 : Rev)
    (hrows : db.rows = db2.rows) (hpk : e.pk = e2.pk) (hf : e.fields = e2.fields) :
    hasUniqueViolation cfg db e = hasUniqueViolation cfg db2 e2 := by
  unfold hasUniqueViolation conflictsWith
  rw [hrows, hpk, hf]

theorem foldl_delete_rows : ∀ (L : List Rev) (db : DB),
    (L.foldl delete_revision db).rows =
      db.rows.filter (fun r => !(L.any (fun o => o.pk == r.pk)))
  | [], db => by simp [List.foldl]
  | o :: L, db => by
    rw [List.foldl_cons, foldl_delete_rows L (delete_revision db o)]
    show (db.rows.filter fun x => !(x.pk == o.pk)).filter _ = _
    rw [List.filter_filter]
    apply List.filter_congr
    intro x _
    simp only [List.any_cons, Bool.not_or]
    rw [Bool.and_comm]
    congr 1
    simp [BEq.comm]

theorem save_update_eq {cfg : ModelConfig} (db : DB) {obj : Rev} {p : Nat}
    (hnc : uniqueDeclared cfg = false) (hpk : obj.pk = some p)
    (hcid : obj.cid.isSome = true)
    (hex : db.rows.any (fun r => r.pk == some p) = true) :
    save cfg db { obj with is_trash := true } =
      .ok ({ rows := db.rows.map
               (fun r => if r.pk == some p then { obj with is_trash := true } else r),
             nextPk := db.nextPk, nextCid := db.nextCid },
           { obj with is_trash := true }) := by
  simp [save, cidTruthy, hcid, validate_bundle, hnc, hpk, hex]

theorem trash_go_spec (cfg : ModelConfig) (hnc : uniqueDeclared cfg = false) :
    ∀ (L : List Rev) (db : DB),
      (∀ o ∈ L, o ∈ db.rows) →
      ((db.rows.map (fun r => r.pk)).Nodup) →
      ((L.map (fun r => r.pk)).Nodup) →
      (∀ r ∈ db.rows, r.pk.isSome = true) →
      (∀ r ∈ db.rows, r.cid.isSome = true) →
      trash_delete_go cfg L db =
        .ok { rows := db.rows.map
                (fun r => if r ∈ L then { r with is_trash := true } else r),
              nextPk := db.nextPk, nextCid := db.nextCid }
  | [], db, _, _, _, _, _ => by
    simp [trash_delete_go]
  | obj :: rest, db, hsub, hnd, hndL, hpkAll, hcidAll => by
    have hobjRows : obj ∈ db.rows := hsub obj (List.mem_cons_self _ _)
    rcases hp : obj.pk with _ | p
    · exact absurd (hp ▸ hpkAll obj hobjRows) (by simp)
    have hex : db.rows.any (fun r => r.pk == some p) = true :=
      List.any_eq_true.mpr ⟨obj, hobjRows, by simp [hp]⟩
    have hcid : obj.cid.isSome = true := hcidAll obj hobjRows
    have hndL2 : ((obj :: rest).map (fun r => r.pk)).Nodup := hndL
    rw [List.map_cons, List.nodup_cons] at hndL2
    obtain ⟨hpkNotIn, hndRest⟩ := hndL2
    have hneRest : ∀ o ∈ rest, o.pk ≠ some p := by
      intro o ho hbeq
      apply hpkNotIn
      rw [hp]
      exact hbeq ▸ List.mem_map_of_mem (fun r => r.pk) ho
    have step := save_update_eq db hnc hp hcid hex
    have hgpk : ∀ r : Rev,
        (if r.pk == some p then { obj with is_trash := true } else r).pk = r.pk := by
      intro r
      by_cases hb : r.pk = some p
      · simp [hb, hp]
      · simp [hb]
    have hrows2 :
        ((db.rows.map
          (fun r => if r.pk == some p then { obj with is_trash := true } else r)).map
            (fun r => r.pk)) = db.rows.map (fun r => r.pk) := by
      rw [List.map_map]
      exact List.map_congr_left (fun r _ => hgpk r)
    have ih := trash_go_spec cfg hnc rest
      { rows := db.rows.map
          (fun r => if r.pk == some p then { obj with is_trash := true } else r),
        nextPk := db.nextPk, nextCid := db.nextCid }
      (by
        intro o ho
        have hne := hneRest o ho
        show o ∈ db.rows.map _
        have heq2 : (if o.pk == some p then { obj with is_trash := true } else o) = o := by
          simp [hne]
        exact heq2 ▸ List.mem_map_of_mem _ (hsub o (List.mem_cons_of_mem _ ho)))
      (by show (List.map _ _).Nodup; rw [hrows2]; exact hnd)
      hndRest
      (by
        intro r hr
        obtain ⟨x, hx, hxr⟩ := List.mem_map.mp hr
        rw [← hxr, hgpk]
        exact hpkAll x hx)
      (by
        intro r hr
        obtain ⟨x, hx, hxr⟩ := List.mem_map.mp hr
        rw [← hxr]
        by_cases hb : x.pk = some p
        · simp only [hb, beq_self_eq_true, if_pos]
          exact hcid
        · simp only [hb, beq_iff_eq, if_neg, not_false_iff]
          exact hcidAll x hx)
    have unfold1 : trash_delete_go cfg (obj :: rest) db =
        (match save cfg db { obj with is_trash := true } with
          | .error err => .error err
          | .ok (db2, _) => trash_delete_go cfg rest db2) := rfl
    rw [unfold1, step]
    show trash_delete_go cfg rest _ = _
    rw [ih]
    congr 1
    congr 1
    rw [List.map_map]
    apply List.map_congr_left
    intro r hr
    simp only [Function.comp_apply]
    by_cases hb : r.pk = some p
    · have hreq : r = obj :=
        List.inj_on_of_nodup_map hnd hr hobjRows (by rw [hb, hp])
      have hc1 : (if r.pk == some p then { obj with is_trash := true } else r)
          = { r with is_trash := true } := by
        rw [hreq]
        simp [hp]
      rw [hc1]
      have hnotin : ({ r with is_trash := true } : Rev) ∉ rest := by
        intro hmem
        exact hneRest _ hmem (by simpa using hb)
      have hrin : r ∈ obj :: rest := by rw [hreq]; exact List.mem_cons_self _ _
      rw [if_neg hnotin, if_pos hrin]
    · have hrne : r ≠ obj := by
        intro hre
        exact hb (hre ▸ hp ▸ rfl)
      have hc1 : (if r.pk == some p then { obj with is_trash := true } else r) = r := by
        simp [hb]
      rw [hc1]
      have hiff : (r ∈ obj :: rest) ↔ (r ∈ rest) := by
        rw [List.mem_cons]
        exact ⟨fun h => h.elim (fun h1 => absurd h1 hrne) id, Or.inr⟩
      rw [if_congr hiff rfl rfl]

theorem filter_map_cid {f : Rev → Rev} (hf : ∀ r, (f r).cid = r.cid)
    (l : List Rev) (c : Option Nat) :
    (l.map f).filter (fun r => r.cid == c) =
      (l.filter (fun r => r.cid == c)).map f := by
  induction l with
  | nil => rfl
  | cons a t ih =>
    simp only [List.map_cons, List.filter_cons, hf a]
    by_cases hb : (a.cid == c) = true
    · simp only [hb, if_pos, List.map_cons, ih]
    · simp only [Bool.not_eq_true] at hb
      simp only [hb, Bool.false_eq_true, if_neg, ih]
      simp

theorem orderBy_map_trash (l : List Rev) :
    orderByComparator (l.map (fun r => { r with is_trash := true })) =
      (orderByComparator l).map (fun r => { r with is_trash := true }) := by
  rw [orderByComparator, orderByComparator]
  exact (List.map_insertionSort (fun a b : Rev => comparator a ≤ comparator b)
    (fun a b : Rev => comparator a ≤ comparator b)
    (fun r => { r with is_trash := true }) l (fun a _ b _ => Iff.rfl)).symm

theorem historyPairs_eq_map (name : String) : ∀ (L : List Rev),
    (∀ r ∈ L, (dunderDictGet r name).isSome = true) →
    historyPairs name L =
      .ok (L.map (fun r => ((dunderDictGet r name).getD .vNone, r)))
  | [], _ => rfl
  | a :: t, h => by
    rcases hv : dunderDictGet a name with _ | x
    · exact absurd (hv ▸ h a (List.mem_cons_self _ _)) (by simp)
    · have ih := historyPairs_eq_map name t (fun r hr => h r (List.mem_cons_of_mem _ hr))
      simp [historyPairs, hv, ih]

/-! ### The claims -/

/-- Claim C1: `revise()` on an unpersisted entity (no primary key, hence no
bundle id yet) creates exactly one new row and assigns it a fresh bundle id
not borne by any existing row; `revise()` on a persisted entity leaves every
existing row — fields and primary keys — unchanged and only appends one new
row to the bundle: a clone with the same fields and bundle id and a fresh,
strictly larger comparator. Stated in the absence of declared bundle
uniqueness constraints, whose interaction with `revise` is claim C4. -/
theorem revise_append_only (cfg : ModelConfig) (db : DB) (e : Rev)
    (hwf : WF db) (hnc : uniqueDeclared cfg = false) : ReviseFrameSpec cfg db e := by
  constructor
  · intro hpk hcid
    constructor
    · simp [revise, validate_bundle, hnc, pkTruthy, hpk, save, cidTruthy, hcid]
    · intro x hx
      obtain ⟨c, hc, hlt⟩ := cid_lt_of_mem hwf hx
      rw [hc]
      intro hcontra
      simp only [Option.some.injEq] at hcontra
      omega
  · intro p hpk hpos hcid
    have hcid2 : e.cid.isSome = true := hcid
    refine ⟨revise_clone_eq db hnc hpk (by omega) hcid2, rfl, rfl, ?_⟩
    intro x hx
    obtain ⟨q, hq, _, hqlt⟩ := pk_lt_of_mem hwf hx
    simp [comparator, hq]
    omega

theorem revise_append_only_witness :
    WF db0 ∧ uniqueDeclared defaultCfg = false ∧ ReviseFrameSpec defaultCfg db0 eFresh :=
  ⟨by decide, by decide, revise_append_only defaultCfg db0 eFresh (by decide) (by decide)⟩

/-- Claim C2: for a revision stored in a well-formed store, `get_revisions`
returns all revisions sharing its bundle id ordered by comparator (with the
comparators pairwise distinct, so maxima and minima are unique), `prev` is the
revision with the greatest comparator strictly below the current one (none
exactly at the lower boundary), and `next` the revision with the least
comparator strictly above (none exactly at the upper boundary). -/
theorem get_revisions_traversal (db : DB) (e : Rev)
    (hwf : WF db) (he : e ∈ db.rows) : TraversalSpec db e := by
  have hpw : List.Pairwise (fun a b => comparator a ≠ comparator b) (get_revisions db e) := by
    have h1 : List.Pairwise (fun a b : Rev => a.pk ≠ b.pk) db.rows :=
      List.pairwise_map.mp hwf.2.1
    have h2 : List.Pairwise (fun a b => comparator a ≠ comparator b) db.rows := by
      refine List.Pairwise.imp_of_mem ?_ h1
      intro a b ha hb hne
      obtain ⟨p, hp, _, _⟩ := pk_lt_of_mem hwf ha
      obtain ⟨q, hq, _, _⟩ := pk_lt_of_mem hwf hb
      simp only [comparator, hp, hq, Option.getD_some]
      intro hpq
      exact hne (by rw [hp, hq, hpq])
    have h3 : List.Pairwise (fun a b => comparator a ≠ comparator b) (bundle db e) :=
      List.Pairwise.sublist (List.filter_sublist _) h2
    exact ((List.perm_insertionSort _ _).pairwise_iff (fun h => Ne.symm h)).mpr h3
  refine ⟨⟨List.perm_insertionSort _ _, sorted_orderByComparator _, hpw⟩, ?_, ?_, ?_, ?_⟩
  · intro p hp
    obtain ⟨hmem, hmax⟩ := head?_orderByComparatorDesc_max hp
    have h1 : p ∈ get_revisions db e ∧ comparator p < comparator e := by
      simpa using List.mem_filter.mp hmem
    refine ⟨mem_get_revisions.mp h1.1, h1.2, ?_⟩
    intro q hq hlt
    have : q ∈ (get_revisions db e).filter (fun r => comparator r < comparator e) := by
      simp [List.mem_filter, mem_get_revisions, hq, hlt]
    exact hmax q this
  · constructor
    · intro h q hq hlt
      have hnil := head?_orderByComparatorDesc_none h
      have : q ∈ (get_revisions db e).filter (fun r => comparator r < comparator e) := by
        simp [List.mem_filter, mem_get_revisions, hq, hlt]
      rw [hnil] at this
      exact absurd this (List.not_mem_nil q)
    · intro h
      have hnil : (get_revisions db e).filter (fun r => comparator r < comparator e) = [] := by
        rw [List.filter_eq_nil_iff]
        intro q hq
        simpa using h q (mem_get_revisions.mp hq)
      rw [get_revisions_prev, hnil]
      rfl
  · intro nx hnx
    have hs : List.Sorted (fun a b => comparator a ≤ comparator b)
        ((get_revisions db e).filter (fun r => comparator e < comparator r)) :=
      (sorted_orderByComparator _).filter _
    obtain ⟨hmem, hmin⟩ := head?_asc_min hs hnx
    have h1 : nx ∈ get_revisions db e ∧ comparator e < comparator nx := by
      simpa using List.mem_filter.mp hmem
    refine ⟨mem_get_revisions.mp h1.1, h1.2, ?_⟩
    intro q hq hlt
    have : q ∈ (get_revisions db e).filter (fun r => comparator e < comparator r) := by
      simp [List.mem_filter, mem_get_revisions, hq, hlt]
    exact hmin q this
  · constructor
    · intro h q hq hlt
      rw [get_revisions_next, List.head?_eq_none_iff] at h
      have : q ∈ (get_revisions db e).filter (fun r => comparator e < comparator r) := by
        simp [List.mem_filter, mem_get_revisions, hq, hlt]
      rw [h] at this
      exact absurd this (List.not_mem_nil q)
    · intro h
      have hnil : (get_revisions db e).filter (fun r => comparator e < comparator r) = [] := by
        rw [List.filter_eq_nil_iff]
        intro q hq
        simpa using h q (mem_get_revisions.mp hq)
      rw [get_revisions_next, hnil]
      rfl

theorem get_revisions_traversal_witness :
    WF db0 ∧ r1 ∈ db0.rows ∧ TraversalSpec db0 r1 :=
  ⟨by decide, by decide, get_revisions_traversal db0 r1 (by decide) (by decide)⟩

/-- Claim C3: on a well-formed store (without declared bundle uniqueness
constraints, cf. claim C4), `revert_to` raises `IndexError` when the fetched
target revision has a primary key outside the primary keys of the content
bundle; when the target is a stored revision of the bundle, it appends one new
latest revision (comparator strictly above every stored row) copying the
target fields into the same bundle, and mutates or deletes nothing. -/
theorem revert_to_spec (cfg : ModelConfig) (db : DB) (e : Rev) (c : Criterion)
    (hwf : WF db) (hnc : uniqueDeclared cfg = false) : RevertSpec cfg db e c := by
  constructor
  · intro obj hf hcont
    simp [revert_to, hf, hcont]
  · intro obj hf hobj hcont
    obtain ⟨p, hpk, hpos, hplt⟩ := pk_lt_of_mem hwf hobj
    obtain ⟨cc, hcc, _⟩ := cid_lt_of_mem hwf hobj
    have hcid : obj.cid.isSome = true := by rw [hcc]; rfl
    have hrev := revise_clone_eq db hnc hpk (by omega) hcid
    obtain ⟨o, ho, hopk⟩ := List.mem_map.mp hcont
    have hoRows : o ∈ db.rows := (mem_bundle.mp (mem_get_revisions.mp ho)).1
    have hoeq : o = obj := pk_inj_of_wf hwf hoRows hobj hopk
    have hcidEq : obj.cid = e.cid := hoeq ▸ (mem_bundle.mp (mem_get_revisions.mp ho)).2
    refine ⟨?_, rfl, hcidEq, ?_⟩
    · simp [revert_to, hf, hcont, hrev]
    · intro x hx
      obtain ⟨q, hq, _, hqlt⟩ := pk_lt_of_mem hwf hx
      simp [comparator, hq]
      omega

theorem revert_to_spec_witness :
    WF db0 ∧ uniqueDeclared defaultCfg = false ∧ RevertSpec defaultCfg db0 r2 (.byPk 1) :=
  ⟨by decide, by decide, revert_to_spec defaultCfg db0 r2 (.byPk 1) (by decide) (by decide)⟩

/-- Claim C4: with bundle uniqueness constraints declared in `Versioning`,
validation runs before every insert and every clone; a `validate_unique`
failure is exactly a uniqueness violation and is raised as `IntegrityError`
(translated from the generic `ValidationError`); without a violation the
insert proceeds, and on the clone path the copy being inserted is itself
validated — a violation there raises `IntegrityError` as well, otherwise the
clone proceeds and appends exactly one row. -/
theorem revise_validates_uniqueness (cfg : ModelConfig) (db : DB) (e : Rev)
    (hdecl : uniqueDeclared cfg = true) : ValidationSpec cfg db e := by
  refine ⟨?_, ?_, ?_, ?_⟩
  · constructor
    · intro h
      by_contra hv
      rw [Bool.not_eq_true] at hv
      rw [validate_unique, hv] at h
      simp at h
    · intro h
      rw [validate_unique, h]
      simp
  · intro h
    simp [revise, validate_bundle, hdecl, validate_unique, h]
  · intro hv hpk
    have hpkt : pkTruthy e = false := by simp [pkTruthy, hpk]
    by_cases hc : cidTruthy e = true
    · have h : revise cfg db e =
          .ok ({ rows := db.rows ++ [{ e with pk := some db.nextPk }],
                 nextPk := db.nextPk + 1, nextCid := db.nextCid },
               { e with pk := some db.nextPk }) := by
        simp [revise, validate_bundle, hdecl, validate_unique, hv, hpkt, save, hc, hpk]
      exact ⟨_, _, h, rfl⟩
    · rw [Bool.not_eq_true] at hc
      have hv2 : hasUniqueViolation cfg { db with nextCid := db.nextCid + 1 }
          { pk := none, cid := some db.nextCid, fields := e.fields,
            is_trash := e.is_trash } = false :=
        (hasUniqueViolation_congr cfg
          { rows := db.rows, nextPk := db.nextPk, nextCid := db.nextCid + 1 } db
          { pk := none, cid := some db.nextCid, fields := e.fields,
            is_trash := e.is_trash } e rfl hpk.symm rfl).trans hv
      have h : revise cfg db e =
          .ok ({ rows := db.rows ++ [{ e with cid := some db.nextCid, pk := some db.nextPk }],
                 nextPk := db.nextPk + 1, nextCid := db.nextCid + 1 },
               { e with cid := some db.nextCid, pk := some db.nextPk }) := by
        simp [revise, validate_bundle, hdecl, validate_unique, hv, hpkt, save, hc, hpk, hv2]
      exact ⟨_, _, h, rfl⟩
  · intro hv hpkt
    constructor
    · intro hv2
      by_cases hc : e.cid.isSome = true
      · simp [revise, validate_bundle, hdecl, validate_unique, hv, hpkt, clone, save,
          cidTruthy, hc, hv2]
      · rw [Bool.not_eq_true] at hc
        have hv3 : hasUniqueViolation cfg { db with nextCid := db.nextCid + 1 }
            { e with pk := none, cid := some db.nextCid }
            = hasUniqueViolation cfg db { e with pk := none } := rfl
        simp [revise, validate_bundle, hdecl, validate_unique, hv, hpkt, clone, save,
          cidTruthy, hc, hv3, hv2]
    · intro hv2
      by_cases hc : e.cid.isSome = true
      · have h : revise cfg db e =
            .ok ({ rows := db.rows ++ [{ e with pk := some db.nextPk }],
                   nextPk := db.nextPk + 1, nextCid := db.nextCid },
                 { e with pk := some db.nextPk }) := by
          simp [revise, validate_bundle, hdecl, validate_unique, hv, hpkt, clone, save,
            cidTruthy, hc, hv2]
        exact ⟨_, _, h, rfl⟩
      · rw [Bool.not_eq_true] at hc
        have hv3 : hasUniqueViolation cfg { db with nextCid := db.nextCid + 1 }
            { e with pk := none, cid := some db.nextCid }
            = hasUniqueViolation cfg db { e with pk := none } := rfl
        have h : revise cfg db e =
            .ok ({ rows := db.rows ++ [{ e with cid := some db.nextCid, pk := some db.nextPk }],
                   nextPk := db.nextPk + 1, nextCid := db.nextCid + 1 },
                 { e with cid := some db.nextCid, pk := some db.nextPk }) := by
          simp [revise, validate_bundle, hdecl, validate_unique, hv, hpkt, clone, save,
            cidTruthy, hc, hv3, hv2]
        exact ⟨_, _, h, rfl⟩

theorem revise_validates_uniqueness_witness :
    uniqueDeclared cfgUnique = true ∧ ValidationSpec cfgUnique db0 r1 :=
  ⟨by decide, revise_validates_uniqueness cfgUnique db0 r1 (by decide)⟩

/-- Claim C5 (code bug): `fetch` with a date criterion raises
`ImproperlyConfigured` when `Versioning.publication_date` is unset — that half
of the claim holds — but when a publication-date field IS configured the
source line crashes instead of resolving a revision: it calls `.order` on a
queryset (no such method; the method is `order_by`) and its argument
references `self`, which is unbound inside the `@classmethod`. The embedded
date branch therefore always errors, never returning a revision. -/
theorem fetch_by_date_crash (cfg : ModelConfig) (db : DB) (d : Nat) :
    fetch cfg db (.byDate d) =
      .error (if (cfg.publication_date.getD "") ≠ "" then Err.attributeError
              else Err.improperlyConfigured) := by
  by_cases h : (cfg.publication_date.getD "") ≠ "" <;> simp [fetch, h]

/-- Claim C6: on a well-formed store (without declared bundle uniqueness
constraints, cf. claim C4), the trashable soft delete marks every revision of
the content bundle as trash, removes no row, and a subsequent
`get_content_bundle` still returns all revisions of the bundle — the same
revisions, now flagged. -/
theorem soft_delete_trashes_bundle (cfg : ModelConfig) (db : DB) (e : Rev)
    (hwf : WF db) (hnc : uniqueDeclared cfg = false) : SoftDeleteSpec cfg db e := by
  have hsub : ∀ o ∈ get_content_bundle db e, o ∈ db.rows := by
    intro o ho
    exact (mem_bundle.mp (mem_get_revisions.mp ho)).1
  have hpkAll : ∀ r ∈ db.rows, r.pk.isSome = true := by
    intro r hr
    obtain ⟨p, hp, _⟩ := pk_lt_of_mem hwf hr
    rw [hp]; rfl
  have hcidAll : ∀ r ∈ db.rows, r.cid.isSome = true := by
    intro r hr
    obtain ⟨c, hc, _⟩ := cid_lt_of_mem hwf hr
    rw [hc]; rfl
  have hndL : ((get_content_bundle db e).map (fun r => r.pk)).Nodup := by
    have hperm : (get_content_bundle db e).Perm (bundle db e) :=
      List.perm_insertionSort _ _
    have hsubl : (bundle db e).Sublist db.rows := List.filter_sublist _
    have hnd2 : ((bundle db e).map (fun r => r.pk)).Nodup :=
      (hsubl.map _).nodup hwf.2.1
    exact ((hperm.map _).nodup_iff).mpr hnd2
  have hgo := trash_go_spec cfg hnc (get_content_bundle db e) db hsub hwf.2.1 hndL
    hpkAll hcidAll
  have hrowsEq : db.rows.map
        (fun r => if r ∈ get_content_bundle db e then { r with is_trash := true } else r)
      = db.rows.map
        (fun r => if r.cid = e.cid then { r with is_trash := true } else r) := by
    apply List.map_congr_left
    intro r hr
    have hiff : (r ∈ get_content_bundle db e) ↔ (r.cid = e.cid) := by
      rw [show (r ∈ get_content_bundle db e) ↔ r ∈ bundle db e from mem_get_revisions,
        mem_bundle]
      exact ⟨fun h => h.2, fun h => ⟨hr, h⟩⟩
    rw [if_congr hiff rfl rfl]
  have hcidPres : ∀ r : Rev,
      ((if r ∈ get_content_bundle db e then { r with is_trash := true } else r) : Rev).cid
        = r.cid := by
    intro r
    by_cases hb : r ∈ get_content_bundle db e
    · simp [hb]
    · simp [hb]
  have hbundleMap : ((db.rows.filter (fun r => r.cid == e.cid)).map
      (fun r => if r ∈ get_content_bundle db e then { r with is_trash := true } else r))
      = (bundle db e).map (fun r => { r with is_trash := true }) := by
    apply List.map_congr_left
    intro r hr
    have hrb : r ∈ bundle db e := hr
    have hmem : r ∈ get_content_bundle db e := mem_get_revisions.mpr hrb
    rw [if_pos hmem]
  have key : ∀ dbx : DB, dbx.rows = db.rows.map
        (fun r => if r ∈ get_content_bundle db e then { r with is_trash := true } else r) →
      get_content_bundle dbx e =
        (get_content_bundle db e).map (fun r => { r with is_trash := true }) := by
    intro dbx hx
    show orderByComparator (dbx.rows.filter (fun r => r.cid == e.cid)) = _
    rw [hx, filter_map_cid hcidPres, hbundleMap, orderBy_map_trash]
    rfl
  refine ⟨_, hgo, hrowsEq, key _ rfl, ?_⟩
  intro r hr
  rw [key _ rfl] at hr
  obtain ⟨x, _, hxr⟩ := List.mem_map.mp hr
  rw [← hxr]

theorem soft_delete_trashes_bundle_witness :
    WF db0 ∧ uniqueDeclared defaultCfg = false ∧ SoftDeleteSpec defaultCfg db0 r1 :=
  ⟨by decide, by decide, soft_delete_trashes_bundle defaultCfg db0 r1 (by decide) (by decide)⟩

/-- Claim C7: on a well-formed store, the hard deletes —
`VersionedModelBase.delete` and `TrashableModel.delete_permanently` — remove
exactly the rows of the content bundle: afterwards no revision of the bundle
remains, and every row outside the bundle is untouched. -/
theorem hard_delete_removes_bundle (db : DB) (e : Rev) (hwf : WF db) :
    HardDeleteSpec db e := by
  have key : (VersionedModel_delete db e).rows
      = db.rows.filter (fun r => !(r.cid == e.cid)) := by
    rw [VersionedModel_delete, foldl_delete_rows]
    apply List.filter_congr
    intro x hx
    congr 1
    rcases hany : (get_revisions db e).any (fun o => o.pk == x.pk) with _ | _
    · rcases hcid : (x.cid == e.cid) with _ | _
      · rfl
      · exfalso
        have hxb : x ∈ bundle db e := mem_bundle.mpr ⟨hx, by simpa using hcid⟩
        have hxg : x ∈ get_revisions db e := mem_get_revisions.mpr hxb
        have : (get_revisions db e).any (fun o => o.pk == x.pk) = true :=
          List.any_eq_true.mpr ⟨x, hxg, by simp⟩
        rw [hany] at this
        exact Bool.false_ne_true this
    · obtain ⟨o, ho, hopk⟩ := List.any_eq_true.mp hany
      have hob : o ∈ bundle db e := mem_get_revisions.mp ho
      have hoeq : o = x := by
        apply pk_inj_of_wf hwf (mem_bundle.mp hob).1 hx
        simpa using hopk
      have : x.cid = e.cid := hoeq ▸ (mem_bundle.mp hob).2
      simp [this]
  have key2 : (delete_permanently db e).rows
      = db.rows.filter (fun r => !(r.cid == e.cid)) := key
  refine ⟨key, key2, ?_, ?_⟩
  · intro r hr hcid
    rw [key] at hr
    have := (List.mem_filter.mp hr).2
    simp [hcid] at this
  · intro r hr hcid
    rw [key2] at hr
    have := (List.mem_filter.mp hr).2
    simp [hcid] at this

theorem hard_delete_removes_bundle_witness :
    WF db0 ∧ HardDeleteSpec db0 r1 :=
  ⟨by decide, hard_delete_removes_bundle db0 r1 (by decide)⟩

/-- Claim C8: whenever the two field values coerce to the same text (the
coercion of `show_diff_to`, which renders falsy values as the empty string),
the computed diff is an empty change set: no insertion and no deletion. -/
theorem diff_equal_values_empty (a b : Rev) (f : String) (va vb : Value)
    (ha : getattr_field a f = .ok va) (hb : getattr_field b f = .ok vb)
    (heq : pyOrEmptyText va = pyOrEmptyText vb) : DiffEqualSpec a b f := by
  refine ⟨diff_main (pyOrEmptyText va) (pyOrEmptyText vb), ?_, ?_⟩
  · simp [show_diff_ops, ha, hb]
  · rw [heq]
    by_cases h : pyOrEmptyText vb = ""
    · simp [diff_main, h]
    · simp [diff_main, h, DiffOp.isIns, DiffOp.isDel]

theorem diff_equal_values_empty_witness :
    getattr_field rBlank "title" = .ok (.vStr "")
    ∧ getattr_field rNoneF "title" = .ok .vNone
    ∧ pyOrEmptyText (.vStr "") = pyOrEmptyText .vNone
    ∧ DiffEqualSpec rBlank rNoneF "title" :=
  ⟨by decide, by decide, by decide,
    diff_equal_values_empty rBlank rNoneF "title" (.vStr "") .vNone
      (by decide) (by decide) (by decide)⟩

/-- Claim C9 (code bug): rendering the admin diff view for a revision with no
previous revision crashes with `NameError` instead of producing a diff of each
field value against the empty string: in the no-previous branch the source
interpolates the local `fromText`, which is assigned only in the
has-previous branch and is therefore unbound (and even with a binding it would
render the previous-side text rather than the field value the claim
specifies). Here `r3` is the sole revision of its bundle in `db0`, so it has
no previous revision, and the view over its one diffable field errors. -/
theorem diff_view_no_prev_nameError :
    get_revisions_prev db0 r3 = none
    ∧ revisions_diff_list db0 r3 ["title"] = .error .nameError := by
  constructor
  · decide
  · decide

/-- Claim C10: for an attribute name ending in `_history`, the interception in
`__getattr__` raises `AttributeError` whenever the current value of the
underlying attribute (the name with `_history` stripped) is falsy — absent,
empty string, zero or None — even though the attribute may exist; only for a
truthy value does it return the (value, revision) pairs across the ordered
revisions of the bundle. -/
theorem history_lookup_truthiness (db : DB) (e : Rev) (n : String)
    (hn : pyEndsWith n "_history" = true) : HistorySpec db e n := by
  constructor
  · intro hf
    simp [getattrFallback, hn, _get_attribute_history, hf]
  · intro ht hall
    simp [getattrFallback, hn, _get_attribute_history, ht]
    exact historyPairs_eq_map _ _ hall

theorem history_lookup_truthiness_witness :
    pyEndsWith "title_history" "_history" = true ∧ HistorySpec db0 r1 "title_history" :=
  ⟨by decide, history_lookup_truthiness db0 r1 "title_history" (by decide)⟩

end Revisions
